import Mathlib

/-!
Verification of the discord-rpc transport and request-correlation core.

The definitions below are a shallow embedding of the JavaScript source:

* the wire framing codec of src/packages/discord-rpc/src/options/transports/ipc.js
  (encode, decode, getIPC), with Node Buffers modelled as lists of byte values
  and the JS runtime JSON.stringify / JSON.parse pair modelled by an executable
  serializer and parser over a JSON value type;
* the RpcClient pieces of the client file (RequestQueue, ResponseCache,
  the pending-request table with its timeout timers, the transport close
  handler, the reconnection supervisor, batchRequest, and the connect
  memoization), modelled as explicit state-passing functions, with the
  event-loop interleavings of async code expressed as small-step traces.
-/

namespace DiscordRpc

/-! ### int32 little-endian reads and writes (Buffer.writeInt32LE / readInt32LE) -/

/-- The unsigned 32-bit pattern of a signed value. -/
def toUInt32 (n : Int) : Nat := (n % 4294967296).toNat

/-- The four little-endian bytes of the 32-bit pattern of `n`.
Mirrors `Buffer.writeInt32LE` after its range check has passed. -/
def int32le (n : Int) : List Nat :=
  let u := toUInt32 n
  [u % 256, u / 256 % 256, u / 65536 % 256, u / 16777216 % 256]

/-- `Buffer.writeInt32LE` throws ERR_OUT_OF_RANGE outside this range. -/
def int32Writable (n : Int) : Prop := -2147483648 ≤ n ∧ n ≤ 2147483647

instance (n : Int) : Decidable (int32Writable n) := by
  unfold int32Writable; infer_instance

/-- `Buffer.readInt32LE l off`: reads four bytes starting at `off` and
reinterprets them as a signed 32-bit value; `none` models the
ERR_OUT_OF_RANGE throw when fewer than four bytes are available. -/
def readInt32LE (l : List Nat) (off : Nat) : Option Int :=
  match l.drop off with
  | b0 :: b1 :: b2 :: b3 :: _ =>
    let u : Nat := b0 + 256 * b1 + 65536 * b2 + 16777216 * b3
    some (if u < 2147483648 then (u : Int) else (u : Int) - 4294967296)
  | _ => none

/-- `Buffer.prototype.slice l s e`: bytes from `s` (inclusive) to `e`
(exclusive), with negative indices counted from the end and both ends
clamped to the buffer, never throwing. -/
def bufSlice (l : List Nat) (s e : Int) : List Nat :=
  let n : Int := l.length
  let s' : Nat := (if s < 0 then max (n + s) 0 else min s n).toNat
  let e' : Nat := (if e < 0 then max (n + e) 0 else min e n).toNat
  (l.take e').drop s'

/-! ### JSON values

The payloads of the protocol are JSON-serializable values.  They are
modelled by the mutual inductive below; strings are lists of byte values
(the UTF-8 bytes JS strings become on the wire, so that a Buffer to
string conversion is the identity in this model). -/

mutual
inductive Json where
  | null : Json
  | bool (b : Bool) : Json
  | num (n : Int) : Json
  | str (s : List Nat) : Json
  | arr (elems : JsonList) : Json
  | obj (members : JsonMembers) : Json
  deriving DecidableEq

inductive JsonList where
  | nil : JsonList
  | cons (hd : Json) (tl : JsonList) : JsonList
  deriving DecidableEq

inductive JsonMembers where
  | nil : JsonMembers
  | cons (key : List Nat) (val : Json) (tl : JsonMembers) : JsonMembers
  deriving DecidableEq
end

/-- The decimal digit bytes of a natural number (most significant first). -/
def natDigits (n : Nat) : List Nat :=
  if h : n < 10 then [48 + n]
  else natDigits (n / 10) ++ [48 + n % 10]
termination_by n
decreasing_by exact Nat.div_lt_self (by omega) (by omega)

/-- The bytes of the decimal representation of an integer. -/
def intDigits (n : Int) : List Nat :=
  if n < 0 then 45 :: natDigits (-n).toNat else natDigits n.toNat

/-- JSON string escaping: quote and backslash are escaped with a backslash,
all other content bytes are emitted unchanged. -/
def escapeByte (b : Nat) : List Nat :=
  if b = 34 ∨ b = 92 then [92, b] else [b]

/-- Escapes every byte of a string body. -/
def escapeString (s : List Nat) : List Nat := s.flatMap escapeByte

mutual
/-- `JSON.stringify` on the modelled JSON values (no added whitespace). -/
def stringify : Json → List Nat
  | .null => [110, 117, 108, 108]
  | .bool true => [116, 114, 117, 101]
  | .bool false => [102, 97, 108, 115, 101]
  | .num n => intDigits n
  | .str s => 34 :: escapeString s ++ [34]
  | .arr xs => 91 :: stringifyElems xs ++ [93]
  | .obj kvs => 123 :: stringifyMembers kvs ++ [125]

/-- Comma-separated serialization of array elements. -/
def stringifyElems : JsonList → List Nat
  | .nil => []
  | .cons x .nil => stringify x
  | .cons x (.cons y tl) => stringify x ++ 44 :: stringifyElems (.cons y tl)

/-- Comma-separated serialization of object members. -/
def stringifyMembers : JsonMembers → List Nat
  | .nil => []
  | .cons k v .nil => 34 :: escapeString k ++ [34, 58] ++ stringify v
  | .cons k v (.cons k2 v2 tl) =>
    34 :: escapeString k ++ [34, 58] ++ stringify v ++
      44 :: stringifyMembers (.cons k2 v2 tl)
end

/-- Whether a byte is a decimal digit. -/
def isDigit (b : Nat) : Bool := 48 ≤ b && b ≤ 57

/-- Splits the longest leading run of digit bytes from a list. -/
def takeDigits : List Nat → List Nat × List Nat
  | [] => ([], [])
  | b :: rest =>
    if isDigit b then
      let p := takeDigits rest
      (b :: p.1, p.2)
    else ([], b :: rest)

/-- The natural number denoted by a list of digit bytes. -/
def digitsToNat (ds : List Nat) : Nat :=
  ds.foldl (fun acc d => acc * 10 + (d - 48)) 0

/-- Parses a JSON string body after the opening quote, honoring backslash
escapes, up to and including the closing quote. -/
def parseStringBody : List Nat → Option (List Nat × List Nat)
  | [] => none
  | b :: rest =>
    if b = 34 then some ([], rest)
    else if b = 92 then
      match rest with
      | [] => none
      | c :: rest2 =>
        match parseStringBody rest2 with
        | some (cs, r) => some (c :: cs, r)
        | none => none
    else
      match parseStringBody rest with
      | some (cs, r) => some (b :: cs, r)
      | none => none

mutual
/-- Fuel-indexed recursive-descent parser for one JSON value, returning the
value and the unconsumed remainder.  Models the strict-grammar portion of
the runtime `JSON.parse` that the serializer above emits into. -/
def parseValue : Nat → List Nat → Option (Json × List Nat)
  | 0, _ => none
  | _ + 1, [] => none
  | fuel + 1, b :: s =>
    if b = 110 then
      match s with
      | 117 :: 108 :: 108 :: rest => some (.null, rest)
      | _ => none
    else if b = 116 then
      match s with
      | 114 :: 117 :: 101 :: rest => some (.bool true, rest)
      | _ => none
    else if b = 102 then
      match s with
      | 97 :: 108 :: 115 :: 101 :: rest => some (.bool false, rest)
      | _ => none
    else if b = 34 then
      match parseStringBody s with
      | some (cs, r) => some (.str cs, r)
      | none => none
    else if b = 91 then
      match s with
      | [] => none
      | c :: s2 =>
        if c = 93 then some (.arr .nil, s2)
        else
          match parseValue fuel (c :: s2) with
          | some (v, r) =>
            match parseElemsRest fuel r with
            | some (vs, r2) => some (.arr (.cons v vs), r2)
            | none => none
          | none => none
    else if b = 123 then
      match s with
      | [] => none
      | c :: s2 =>
        if c = 125 then some (.obj .nil, s2)
        else
          match parseMember fuel (c :: s2) with
          | some (k, v, r) =>
            match parseMembersRest fuel r with
            | some (kvs, r2) => some (.obj (.cons k v kvs), r2)
            | none => none
          | none => none
    else if b = 45 then
      match takeDigits s with
      | ([], _) => none
      | (ds, r) => some (.num (-(digitsToNat ds : Int)), r)
    else if isDigit b then
      some (.num (digitsToNat (b :: (takeDigits s).1)), (takeDigits s).2)
    else none

/-- After one array element: expects a comma and a further element, or the
closing bracket. -/
def parseElemsRest : Nat → List Nat → Option (JsonList × List Nat)
  | 0, _ => none
  | _ + 1, [] => none
  | fuel + 1, b :: s =>
    if b = 93 then some (.nil, s)
    else if b = 44 then
      match parseValue fuel s with
      | some (v, r) =>
        match parseElemsRest fuel r with
        | some (vs, r2) => some (.cons v vs, r2)
        | none => none
      | none => none
    else none

/-- One object member: a quoted key, a colon, then a value. -/
def parseMember : Nat → List Nat → Option (List Nat × Json × List Nat)
  | 0, _ => none
  | _ + 1, [] => none
  | fuel + 1, b :: s =>
    if b = 34 then
      match parseStringBody s with
      | some (k, r) =>
        match r with
        | 58 :: r2 =>
          match parseValue fuel r2 with
          | some (v, r3) => some (k, v, r3)
          | none => none
        | _ => none
      | none => none
    else none

/-- After one object member: expects a comma and a further member, or the
closing brace. -/
def parseMembersRest : Nat → List Nat → Option (JsonMembers × List Nat)
  | 0, _ => none
  | _ + 1, [] => none
  | fuel + 1, b :: s =>
    if b = 125 then some (.nil, s)
    else if b = 44 then
      match parseMember fuel s with
      | some (k, v, r) =>
        match parseMembersRest fuel r with
        | some (kvs, r2) => some (.cons k v kvs, r2)
        | none => none
      | none => none
    else none
end

/-- `JSON.parse` on a complete text: the parse succeeds exactly when one
JSON value consumes the whole input. -/
def parse (s : List Nat) : Option Json :=
  match parseValue (s.length + 1) s with
  | some (j, []) => some j
  | _ => none

/-! ### The frame codec of ipc.js -/

/-- `encode(op, data)` of ipc.js: an 8-byte header (int32le opcode, int32le
payload length) followed by the JSON text of the payload.  `none` models the
throw of `writeInt32LE` when the opcode or the length is outside the signed
32-bit range. -/
def encode (op : Int) (data : Json) : Option (List Nat) :=
  let s := stringify data
  if int32Writable op ∧ int32Writable (s.length : Int) then
    some (int32le op ++ int32le (s.length : Int) ++ s)
  else none

/-- The per-socket reassembly state of ipc.js (`{ full: '', op: undefined }`
stored in the `socketState` WeakMap). -/
structure DecState where
  full : List Nat
  op : Option Int
  deriving DecidableEq

/-- The reassembly state of a fresh socket. -/
def initState : DecState := ⟨[], none⟩

/-- One pass of the body of `decode(socket, callback)` of ipc.js over a
single packet returned by `socket.read()`.  Returns the new state and the
decoded event passed to the callback, if any; `Except.error` models the
uncaught `readInt32LE` throw on a packet shorter than 8 bytes while no
partial message is pending. -/
def decodeChunk (st : DecState) (packet : List Nat) :
    Except Unit (DecState × Option (Option Int × Json)) :=
  if st.full = [] then
    match readInt32LE packet 0 with
    | none => .error ()
    | some op =>
      match readInt32LE packet 4 with
      | none => .error ()
      | some len =>
        let raw := bufSlice packet 8 (len + 8)
        match parse (st.full ++ raw) with
        | some data => .ok (⟨[], none⟩, some (some op, data))
        | none => .ok (⟨st.full ++ raw, some op⟩, none)
  else
    let raw := packet
    match parse (st.full ++ raw) with
    | some data => .ok (⟨[], none⟩, some (st.op, data))
    | none => .ok (⟨st.full ++ raw, st.op⟩, none)

/-- The outcome of feeding a sequence of reads to the reassembly decoder:
final state, the decoded events in callback order, and whether an uncaught
header-read throw terminated the processing. -/
structure DecodeRun where
  state : DecState
  events : List (Option Int × Json)
  crashed : Bool
  deriving DecidableEq

/-- Feeds successive packets (the results of successive `socket.read()`
calls, which the recursion at the bottom of `decode` drains in order) to the
decoder. -/
def decodeChunks : DecState → List (List Nat) → DecodeRun
  | st, [] => ⟨st, [], false⟩
  | st, p :: rest =>
    match decodeChunk st p with
    | .error _ => ⟨st, [], true⟩
    | .ok (st', ev) =>
      let r := decodeChunks st' rest
      ⟨r.state, ev.toList ++ r.events, r.crashed⟩

/-! ### getIPC of ipc.js -/

/-- `getIPC(id)` of ipc.js over an availability oracle: tries the candidate
endpoint for instance `id`; on connection error retries `id + 1` as long as
`id < 10`, and otherwise fails with ConnectionFailed (`none`).  Returns the
instance number of the first candidate that connects. -/
def getIPC (avail : Nat → Bool) (id : Nat) : Option Nat :=
  if avail id then some id
  else if h : id < 10 then getIPC avail (id + 1)
  else none
termination_by 10 - id

/-! ### Association-list model of a JS Map (insertion-ordered) -/

section MapModel
variable {K E : Type} [DecidableEq K]

/-- `Map.get` / `Map.has`: the entry stored under a key. -/
def mapLookup (m : List (K × E)) (k : K) : Option E :=
  (m.find? fun p => decide (p.1 = k)).map (fun p => p.2)

/-- `Map.set`: updates the entry in place if the key is present (keeping its
position in iteration order), otherwise appends a new entry. -/
def mapSet (m : List (K × E)) (k : K) (e : E) : List (K × E) :=
  if (m.find? fun p => decide (p.1 = k)).isSome then
    m.map fun p => if p.1 = k then (k, e) else p
  else m ++ [(k, e)]

/-- `Map.delete`: removes the entry stored under a key. -/
def mapDelete (m : List (K × E)) (k : K) : List (K × E) :=
  m.filter fun p => decide (p.1 ≠ k)

end MapModel

/-! ### ResponseCache of client.js -/

/-- A stored cache entry: `{ value, expires: Date.now() + this.ttl }`. -/
structure CacheEntry (V : Type) where
  value : V
  expires : Int
  deriving DecidableEq

/-- The ResponseCache class: a Map from keys to entries plus the ttl.
`Date.now()` is passed explicitly as the `now` argument of each method. -/
structure ResponseCache (K V : Type) where
  cache : List (K × CacheEntry V)
  ttl : Int
  deriving DecidableEq

/-- `ResponseCache.set(key, value)`: always stores a fresh expiry
`now + ttl`. -/
def ResponseCache.set [DecidableEq K] (c : ResponseCache K V) (now : Int)
    (key : K) (value : V) : ResponseCache K V :=
  { c with cache := mapSet c.cache key ⟨value, now + c.ttl⟩ }

/-- `ResponseCache.get(key)`: misses on an absent key; on a present entry,
evicts and misses when `now > expires`, and otherwise returns the value. -/
def ResponseCache.get [DecidableEq K] (c : ResponseCache K V) (now : Int)
    (key : K) : Option V × ResponseCache K V :=
  match mapLookup c.cache key with
  | none => (none, c)
  | some item =>
    if now > item.expires then (none, { c with cache := mapDelete c.cache key })
    else (some item.value, c)

/-! ### RpcClient: pending-request table, close handler, reconnection,
connect memoization -/

/-- The error values the modelled client paths construct. -/
inductive ClientErr where
  | RpcTimeout : ClientErr
  | ConnectionError : ClientErr
  | MessageError : ClientErr
  | ConnectionFailedErr : ClientErr
  deriving DecidableEq

/-- The externally observable actions of the client handlers: settling a
pending request future, emitting events, writing frames, settling the
memoized connect promise, and starting a transport connection. -/
inductive Action where
  | resolveReq (nonce : Nat) (data : Json)
  | rejectReq (nonce : Nat) (e : ClientErr)
  | emitBroadcast (evt : Option String) (data : Json)
  | emitConnected
  | emitDisconnected
  | emitReconnecting (attempt : Nat)
  | emitError (e : ClientErr)
  | sendFrame (nonce : Nat)
  | rejectConnect (e : ClientErr)
  | transportConnect
  deriving DecidableEq

/-- Whether an action settles (resolves or rejects) the pending request
registered under the given nonce. -/
def Action.settles (a : Action) (nonce : Nat) : Bool :=
  match a with
  | .resolveReq n _ => n == nonce
  | .rejectReq n _ => n == nonce
  | _ => false

/-- The mutable state of one RpcClient that the verified claims concern:
the `_expecting` Map (as its insertion-ordered nonce list; every entry
carries the same resolve/reject wrapper shape), the still-armed per-request
timeout timers, the memoized `_connectPromise`, and the reconnection
accounting. -/
structure ClientState where
  expecting : List Nat
  timers : List Nat
  connectPromise : Option Nat
  nextPromise : Nat
  clientId : Option Nat
  reconnectAttempts : Nat
  maxReconnectAttempts : Nat
  isReconnecting : Bool
  deriving DecidableEq

/-- An inbound DATA payload as `_onRpcMessage` inspects it. -/
structure RpcMessage where
  cmd : String
  evt : Option String
  nonce : Option Nat
  data : Json

/-- The executor body of `request()` once the admission queue runs it:
arms the timeout timer, registers the entry under a fresh uuid nonce in
`_expecting`, and sends the DATA frame. -/
def registerRequest (st : ClientState) (nonce : Nat) : ClientState × List Action :=
  ({ st with
      expecting :=
        if st.expecting.contains nonce then st.expecting
        else st.expecting ++ [nonce],
      timers := st.timers ++ [nonce] },
   [.sendFrame nonce])

/-- The timeout timer callback of `request()`: deletes the entry from
`_expecting` and rejects with RpcTimeout.  A timer that was already
cleared (by resolution or rejection) never fires. -/
def fireTimeout (st : ClientState) (nonce : Nat) : ClientState × List Action :=
  if st.timers.contains nonce then
    ({ st with
        expecting := st.expecting.erase nonce,
        timers := st.timers.erase nonce },
     [.rejectReq nonce .RpcTimeout])
  else (st, [])

/-- `_onRpcMessage` of client.js: the READY dispatch drives the connected
transition; a message whose nonce matches a pending entry settles and
removes that entry (clearing its timer through the stored wrapper); any
other message is emitted as a broadcast event. -/
def onRpcMessage (st : ClientState) (m : RpcMessage) : ClientState × List Action :=
  if m.cmd = "DISPATCH" ∧ m.evt = some "READY" then
    (st, [.emitConnected])
  else
    match m.nonce with
    | some n =>
      if st.expecting.contains n then
        ({ st with
            expecting := st.expecting.erase n,
            timers := st.timers.erase n },
         if m.evt = some "RpcError" then [.rejectReq n .MessageError]
         else [.resolveReq n m.data])
      else (st, [.emitBroadcast m.evt m.data])
    | none => (st, [.emitBroadcast m.evt m.data])

/-- The `connected` once-handler installed by `connect()`: clears the
connect timeout and resets the reconnection attempt counter to zero. -/
def onConnected (st : ClientState) : ClientState :=
  { st with reconnectAttempts := 0 }

/-- The transport `close` handler installed by `connect()`: rejects every
still-pending entry with a ConnectionError (each stored wrapper clearing
its own timeout timer), emits `disconnected`, and rejects the connect
promise.  The `_expecting` Map itself is left untouched. -/
def onClose (st : ClientState) : ClientState × List Action :=
  ({ st with timers := st.timers.filter fun t => !st.expecting.contains t },
   (st.expecting.map fun n => Action.rejectReq n .ConnectionError)
     ++ [.emitDisconnected, .rejectConnect .ConnectionError])

/-- `connect(clientId)`: returns the memoized `_connectPromise` untouched
when one exists (regardless of the argument), and otherwise stores the
client id, creates and memoizes a fresh promise, and starts the transport
connection. -/
def connect (st : ClientState) (cid : Nat) : ClientState × Nat × List Action :=
  match st.connectPromise with
  | some p => (st, p, [])
  | none =>
    let p := st.nextPromise
    ({ st with
        connectPromise := some p,
        nextPromise := p + 1,
        clientId := some cid },
     p, [.transportConnect])

/-- The outcome of one `_tryReconnect` invocation: either the fatal report
with no further attempt, or a delayed attempt. -/
inductive ReconnectOutcome where
  | exhausted (st : ClientState)
  | attempt (delayMs : Nat) (st : ClientState) (promise : Nat)
  deriving DecidableEq

/-- Projects the client state out of a reconnect outcome. -/
def ReconnectOutcome.state : ReconnectOutcome → ClientState
  | .exhausted st => st
  | .attempt _ st _ => st

/-- One invocation of `_tryReconnect(clientId)` up to its `connect()` call:
if the attempt counter has reached the maximum, emits the fatal
ConnectionFailed error and stops; otherwise marks reconnection in
progress, increments the counter, waits
`Math.min(1000 * 2 ^ attempts, 30000)` milliseconds (with `attempts` the
just-incremented counter), discards the memoized connect promise and calls
`connect()` again. -/
def tryReconnect (st : ClientState) (cid : Nat) : ReconnectOutcome × List Action :=
  if st.reconnectAttempts ≥ st.maxReconnectAttempts then
    (.exhausted st, [.emitError .ConnectionFailedErr])
  else
    let st1 := { st with
                  isReconnecting := true,
                  reconnectAttempts := st.reconnectAttempts + 1 }
    let delay := min (1000 * 2 ^ st1.reconnectAttempts) 30000
    let st2 := { st1 with connectPromise := none }
    let c := connect st2 cid
    (.attempt delay c.1 c.2.1, .emitReconnecting st1.reconnectAttempts :: c.2.2)

/-- The state after a number of failed reconnection attempts: each failed
attempt runs `_tryReconnect` and its `connect()` rejects, landing in the
catch branch that re-invokes `_tryReconnect`. -/
def afterFailures (cid : Nat) : ClientState → Nat → ClientState
  | st, 0 => st
  | st, k + 1 =>
    match (tryReconnect st cid).1 with
    | .exhausted _ => st
    | .attempt _ st' _ => afterFailures cid st' k

/-! ### RequestQueue of client.js as a small-step trace machine

`add(fn)` is an async function; its suspension points cut it into three
synchronous pieces, which become the events of the machine:

* `call i` runs the entry of `add` for caller `i`: the gate check
  `running >= maxConcurrent` either pushes a resolver onto `queue` (the
  caller suspends) or falls through to `running++` (the caller is admitted
  and `fn` starts);
* `resume i` runs the continuation of a suspended caller after its queued
  resolver has been invoked: `running++` with no re-check, then `fn` starts;
* `complete i ok` runs the `finally` block when `fn` settles (`ok` is
  whether `fn` succeeded; both paths are identical): `running--`, then the
  head resolver of `queue`, if any, is invoked, marking that caller woken.

Between any two events the JS event loop may run anything, so traces are
arbitrary event lists. -/

/-- One caller of `RequestQueue.add`, tracked through its lifecycle. -/
inductive QEvent where
  | call (i : Nat)
  | resume (i : Nat)
  | complete (i : Nat) (ok : Bool)
  deriving DecidableEq

/-- The queue state: the `running` counter and `queue` array of the source,
the derived caller phases (waiting in `queue`, woken but not yet resumed,
admitted and running, finished), and the append-only logs of enqueue and
wake order used to state the FIFO property. -/
structure QState where
  maxConcurrent : Nat
  running : Int
  queue : List Nat
  wokenSet : List Nat
  runningSet : List Nat
  doneSet : List Nat
  enqueuedLog : List Nat
  wokenLog : List Nat
  deriving DecidableEq

/-- A `RequestQueue` as constructed: no caller has arrived yet. -/
def qinit (maxConcurrent : Nat) : QState :=
  ⟨maxConcurrent, 0, [], [], [], [], [], []⟩

/-- Whether a caller id has already been seen by the machine. -/
def QState.seen (st : QState) (i : Nat) : Bool :=
  st.queue.contains i || st.wokenSet.contains i ||
    st.runningSet.contains i || st.doneSet.contains i

/-- The transition function of the trace machine; events that are not
enabled (an unknown id resuming or completing, a reused id calling) leave
the state unchanged. -/
def qstep (st : QState) (e : QEvent) : QState :=
  match e with
  | .call i =>
    if st.seen i then st
    else if (st.maxConcurrent : Int) ≤ st.running then
      { st with
          queue := st.queue ++ [i],
          enqueuedLog := st.enqueuedLog ++ [i] }
    else
      { st with
          running := st.running + 1,
          runningSet := st.runningSet ++ [i] }
  | .resume i =>
    if st.wokenSet.contains i then
      { st with
          wokenSet := st.wokenSet.erase i,
          running := st.running + 1,
          runningSet := st.runningSet ++ [i] }
    else st
  | .complete i _ =>
    if st.runningSet.contains i then
      let st1 := { st with
                    running := st.running - 1,
                    runningSet := st.runningSet.erase i,
                    doneSet := st.doneSet ++ [i] }
      match st1.queue with
      | [] => st1
      | w :: rest =>
        { st1 with
            queue := rest,
            wokenSet := st1.wokenSet ++ [w],
            wokenLog := st1.wokenLog ++ [w] }
    else st

/-- Runs a trace of events from a state. -/
def qrun (st : QState) (evs : List QEvent) : QState := evs.foldl qstep st

/-- A trace is race-free from a state when every `call` event in it occurs
while no woken caller is still waiting to resume (the window in which the
gate check of `add` is stale). -/
def safeTrace : QState → List QEvent → Bool
  | _, [] => true
  | st, e :: rest =>
    (match e with
     | .call _ => st.wokenSet.isEmpty
     | _ => true) && safeTrace (qstep st e) rest

/-! ### batchRequest / _processBatch of client.js -/

/-- One buffered batch item: the request it stands for and the identity of
the `batchRequest` promise whose single `resolve` every item of that call
shares. -/
structure BatchItem (R : Type) where
  req : R
  callerId : Nat
  deriving DecidableEq

/-- The `_batchQueue` buffer and `_batchTimer` flag of the client. -/
structure BatchState (R : Type) where
  batchQueue : List (BatchItem R)
  timerActive : Bool
  deriving DecidableEq

/-- `batchRequest(requests)` with batching enabled: pushes one item per
request, each carrying the same `resolve` of the one new promise, clears
any armed flush timer and re-arms it (debounce). -/
def batchRequestEnabled (st : BatchState R) (callerId : Nat) (reqs : List R) :
    BatchState R :=
  ⟨st.batchQueue ++ reqs.map fun r => ⟨r, callerId⟩, true⟩

/-- `batchRequest(requests)` with batching disabled:
`Promise.all(requests.map(r => this.request(...)))`, so the caller is
settled with the list of all its results in order; `resolver` gives the
response each issued request eventually resolves with. -/
def batchRequestDisabled (resolver : R → V) (reqs : List R) : List V :=
  reqs.map resolver

/-- `_processBatch()`: splices the whole buffer, issues every buffered
request concurrently, and after `Promise.all` calls
`item.resolve(results[i])` for each item in order. -/
def processBatch (resolver : R → V) (st : BatchState R) :
    BatchState R × List (Nat × V) :=
  (⟨[], false⟩, st.batchQueue.map fun it => (it.callerId, resolver it.req))

/-- Promise semantics: of all `resolve` invocations on one promise, the
first wins and the rest are ignored, so a caller observes the value of the
first settle action naming it. -/
def firstSettle (settles : List (Nat × V)) (caller : Nat) : Option V :=
  (settles.find? fun s => s.1 == caller).map fun s => s.2

/-! ### Auxiliary forms used to state and prove the codec properties -/

/-- The serialized bytes of one object member. -/
def memberBytes (k : List Nat) (v : Json) : List Nat :=
  34 :: escapeString k ++ [34, 58] ++ stringify v

/-- The serialized bytes following the first element of a JSON array:
separators, the remaining elements, the closing bracket, then `rest`. -/
def elemsRest : JsonList → List Nat → List Nat
  | .nil, rest => 93 :: rest
  | .cons y t, rest => 44 :: stringify y ++ elemsRest t rest

/-- The serialized bytes following the first member of a JSON object. -/
def membersRest : JsonMembers → List Nat → List Nat
  | .nil, rest => 125 :: rest
  | .cons k v t, rest => 44 :: memberBytes k v ++ membersRest t rest

mutual
/-- Parser fuel sufficient for one serialized JSON value. -/
def fuelJ : Json → Nat
  | .null => 1
  | .bool _ => 1
  | .num _ => 1
  | .str _ => 1
  | .arr .nil => 1
  | .arr (.cons x tl) => 1 + max (fuelJ x) (fuelE tl)
  | .obj .nil => 1
  | .obj (.cons _ v tl) => 1 + max (1 + fuelJ v) (fuelM tl)

/-- Parser fuel sufficient for the tail of a serialized array. -/
def fuelE : JsonList → Nat
  | .nil => 1
  | .cons y t => 1 + max (fuelJ y) (fuelE t)

/-- Parser fuel sufficient for the tail of a serialized object. -/
def fuelM : JsonMembers → Nat
  | .nil => 1
  | .cons _ v t => 1 + max (1 + fuelJ v) (fuelM t)
end

/-- The remainders that can legally follow one serialized JSON value in a
larger serialized text: nothing, or a separator or closing delimiter. -/
def delimOk : List Nat → Prop
  | [] => True
  | b :: _ => b = 44 ∨ b = 93 ∨ b = 125

/-- The head of `rest` is not a digit (vacuous for an empty `rest`). -/
def headNotDigit : List Nat → Prop
  | [] => True
  | b :: _ => isDigit b = false

/-- The bytes a serialized JSON value can begin with. -/
def goodStartNat (b : Nat) : Prop :=
  b = 110 ∨ b = 116 ∨ b = 102 ∨ b = 34 ∨ b = 91 ∨ b = 123 ∨ b = 45 ∨ isDigit b = true


/-- Registers a list of requests in order (each admitted request runs the
executor body of `request()` with its fresh nonce). -/
def registerAll (st : ClientState) (ns : List Nat) : ClientState :=
  ns.foldl (fun s n => (registerRequest s n).1) st

/-- A freshly constructed client (empty pending table, no memoized connect
promise, default `maxReconnectAttempts` of 3). -/
def client0 : ClientState := ⟨[], [], none, 0, none, 0, 3, false⟩

/-- A freshly constructed client with the given maximum number of
reconnection attempts. -/
def freshReconnect (maxAttempts : Nat) : ClientState :=
  ⟨[], [], none, 0, none, 0, maxAttempts, false⟩

/-- The backoff delay of a reconnect outcome, when an attempt is made. -/
def ReconnectOutcome.delay? : ReconnectOutcome → Option Nat
  | .exhausted _ => none
  | .attempt d _ _ => some d

/-! ## Lemmas: int32 little-endian round trip -/

theorem toUInt32_lt (n : Int) : toUInt32 n < 4294967296 := by
  unfold toUInt32
  have h1 := Int.emod_nonneg n (by norm_num : (4294967296 : Int) ≠ 0)
  have h2 := Int.emod_lt_of_pos n (by norm_num : (0 : Int) < 4294967296)
  omega

theorem toUInt32_cast (n : Int) : (toUInt32 n : Int) = n % 4294967296 := by
  unfold toUInt32
  exact Int.toNat_of_nonneg (Int.emod_nonneg n (by norm_num))

theorem readInt32LE_int32le (n : Int) (l : List Nat) (h : int32Writable n) :
    readInt32LE (int32le n ++ l) 0 = some n := by
  obtain ⟨h1, h2⟩ := h
  have hu := toUInt32_lt n
  have hc := toUInt32_cast n
  unfold readInt32LE int32le
  simp only [List.cons_append, List.drop_zero]
  have hsum : toUInt32 n % 256 + 256 * (toUInt32 n / 256 % 256) +
      65536 * (toUInt32 n / 65536 % 256) +
      16777216 * (toUInt32 n / 16777216 % 256) = toUInt32 n := by
    omega
  simp only [hsum]
  split
  · simp only [Option.some.injEq]
    omega
  · simp only [Option.some.injEq]
    omega

theorem readInt32LE_shift (l1 l2 : List Nat) :
    readInt32LE (l1 ++ l2) l1.length = readInt32LE l2 0 := by
  unfold readInt32LE
  rw [List.drop_left, List.drop_zero]

/-! ## Lemmas: decimal digits -/

theorem natDigits_ne_nil (n : Nat) : natDigits n ≠ [] := by
  unfold natDigits
  split
  · simp
  · simp

theorem natDigits_digits (n : Nat) : ∀ b ∈ natDigits n, isDigit b = true := by
  induction n using Nat.strong_induction_on with
  | _ n ih =>
    unfold natDigits
    split
    · intro b hb
      simp only [List.mem_singleton] at hb
      subst hb
      simp only [isDigit, Bool.and_eq_true, decide_eq_true_eq]
      omega
    · next h =>
      intro b hb
      rw [List.mem_append] at hb
      rcases hb with hb | hb
      · exact ih (n / 10) (Nat.div_lt_self (by omega) (by omega)) b hb
      · simp only [List.mem_singleton] at hb
        subst hb
        simp only [isDigit, Bool.and_eq_true, decide_eq_true_eq]
        omega

theorem digitsToNat_aux (n : Nat) :
    ∀ acc : Nat,
      (natDigits n).foldl (fun acc d => acc * 10 + (d - 48)) acc
        = acc * 10 ^ (natDigits n).length + n := by
  induction n using Nat.strong_induction_on with
  | _ n ih =>
    intro acc
    unfold natDigits
    split
    · next h =>
      simp only [List.foldl_cons, List.foldl_nil, List.length_singleton, pow_one]
      omega
    · next h =>
      rw [List.foldl_append]
      rw [ih (n / 10) (Nat.div_lt_self (by omega) (by omega))]
      simp only [List.foldl_cons, List.foldl_nil, List.length_append,
        List.length_singleton]
      rw [pow_succ]
      have hd : 48 + n % 10 - 48 = n % 10 := by omega
      rw [hd]
      have : (acc * 10 ^ (natDigits (n / 10)).length + n / 10) * 10 + n % 10
          = acc * (10 ^ (natDigits (n / 10)).length * 10) + (n / 10 * 10 + n % 10) := by
        ring
      rw [this]
      omega

theorem digitsToNat_natDigits (n : Nat) : digitsToNat (natDigits n) = n := by
  unfold digitsToNat
  rw [digitsToNat_aux]
  simp

theorem takeDigits_append (ds rest : List Nat)
    (hds : ∀ b ∈ ds, isDigit b = true) (hrest : headNotDigit rest) :
    takeDigits (ds ++ rest) = (ds, rest) := by
  induction ds with
  | nil =>
    simp only [List.nil_append]
    cases rest with
    | nil => rfl
    | cons b t =>
      unfold takeDigits
      unfold headNotDigit at hrest
      rw [if_neg]
      simp [hrest]
  | cons d ds ih =>
    have hd : isDigit d = true := hds d (List.mem_cons_self d ds)
    unfold takeDigits
    simp only [List.cons_append]
    rw [if_pos hd]
    rw [ih fun b hb => hds b (List.mem_cons_of_mem d hb)]

theorem delimOk_headNotDigit (rest : List Nat) (h : delimOk rest) :
    headNotDigit rest := by
  cases rest with
  | nil => trivial
  | cons b t =>
    unfold delimOk at h
    unfold headNotDigit
    rcases h with h | h | h <;> subst h <;> rfl

/-! ## Lemmas: string body round trip -/

theorem parseStringBody_quote (rest : List Nat) :
    parseStringBody (34 :: rest) = some ([], rest) := by
  unfold parseStringBody
  rw [if_pos rfl]

theorem parseStringBody_esc (c : Nat) (t : List Nat) :
    parseStringBody (92 :: c :: t)
      = match parseStringBody t with
        | some (cs, r) => some (c :: cs, r)
        | none => none := by
  conv_lhs => unfold parseStringBody
  rw [if_neg (by decide), if_pos rfl]

theorem parseStringBody_other (b : Nat) (t : List Nat) (h1 : b ≠ 34) (h2 : b ≠ 92) :
    parseStringBody (b :: t)
      = match parseStringBody t with
        | some (cs, r) => some (b :: cs, r)
        | none => none := by
  conv_lhs => unfold parseStringBody
  rw [if_neg h1, if_neg h2]

theorem parseStringBody_escape (s rest : List Nat) :
    parseStringBody (escapeString s ++ 34 :: rest) = some (s, rest) := by
  induction s with
  | nil =>
    have h : escapeString [] ++ 34 :: rest = 34 :: rest := by
      simp [escapeString]
    rw [h, parseStringBody_quote]
  | cons c cs ih =>
    by_cases hc : c = 34 ∨ c = 92
    · have h : escapeString (c :: cs) ++ 34 :: rest
          = 92 :: c :: (escapeString cs ++ 34 :: rest) := by
        simp [escapeString, escapeByte, hc]
      rw [h, parseStringBody_esc, ih]
    · push_neg at hc
      have hb : escapeByte c = [c] := by
        unfold escapeByte
        rw [if_neg (by tauto)]
      have h : escapeString (c :: cs) ++ 34 :: rest
          = c :: (escapeString cs ++ 34 :: rest) := by
        simp [escapeString, hb]
      rw [h, parseStringBody_other c _ hc.1 hc.2, ih]

/-! ## Lemmas: shape of serialized values -/

theorem isDigit_bounds (b : Nat) (h : isDigit b = true) : 48 ≤ b ∧ b ≤ 57 := by
  simpa [isDigit, Bool.and_eq_true, decide_eq_true_eq] using h

theorem goodStart_ne_93 (b : Nat) (h : goodStartNat b) : b ≠ 93 := by
  unfold goodStartNat at h
  rcases h with h | h | h | h | h | h | h | h
  all_goals try omega
  have hb := isDigit_bounds b h
  omega

theorem goodStart_ne_125 (b : Nat) (h : goodStartNat b) : b ≠ 125 := by
  unfold goodStartNat at h
  rcases h with h | h | h | h | h | h | h | h
  all_goals try omega
  have hb := isDigit_bounds b h
  omega

theorem stringify_starts (j : Json) :
    ∃ b t, stringify j = b :: t ∧ goodStartNat b := by
  cases j with
  | null =>
    exact ⟨110, [117, 108, 108], by simp [stringify], by unfold goodStartNat; tauto⟩
  | bool b =>
    cases b
    · exact ⟨102, [97, 108, 115, 101], by simp [stringify], by unfold goodStartNat; tauto⟩
    · exact ⟨116, [114, 117, 101], by simp [stringify], by unfold goodStartNat; tauto⟩
  | num n =>
    by_cases hn : n < 0
    · refine ⟨45, natDigits (-n).toNat, ?_, by unfold goodStartNat; tauto⟩
      simp [stringify, intDigits, hn]
    · obtain ⟨d, t, hdt⟩ : ∃ d t, natDigits n.toNat = d :: t := by
        cases h : natDigits n.toNat with
        | nil => exact absurd h (natDigits_ne_nil _)
        | cons d t => exact ⟨d, t, rfl⟩
      refine ⟨d, t, ?_, ?_⟩
      · simp [stringify, intDigits, hn, hdt]
      · have hd : isDigit d = true :=
          natDigits_digits n.toNat d (by rw [hdt]; exact List.mem_cons_self d t)
        unfold goodStartNat
        tauto
  | str s =>
    exact ⟨34, escapeString s ++ [34], by simp [stringify], by unfold goodStartNat; tauto⟩
  | arr xs =>
    exact ⟨91, stringifyElems xs ++ [93], by simp [stringify], by unfold goodStartNat; tauto⟩
  | obj kvs =>
    exact ⟨123, stringifyMembers kvs ++ [125], by simp [stringify], by unfold goodStartNat; tauto⟩

theorem stringifyElems_append (tl : JsonList) (x : Json) (rest : List Nat) :
    stringifyElems (.cons x tl) ++ 93 :: rest = stringify x ++ elemsRest tl rest := by
  cases tl with
  | nil => simp [stringifyElems, elemsRest]
  | cons y t =>
    have h1 : stringifyElems (.cons x (.cons y t))
        = stringify x ++ 44 :: stringifyElems (.cons y t) := by
      simp [stringifyElems]
    rw [h1, List.append_assoc, List.cons_append, stringifyElems_append t y rest]
    simp [elemsRest]
termination_by sizeOf tl

theorem stringifyMembers_append (tl : JsonMembers) (k : List Nat) (v : Json)
    (rest : List Nat) :
    stringifyMembers (.cons k v tl) ++ 125 :: rest
      = memberBytes k v ++ membersRest tl rest := by
  cases tl with
  | nil => simp [stringifyMembers, memberBytes, membersRest, List.append_assoc]
  | cons k2 v2 t =>
    have h1 : stringifyMembers (.cons k v (.cons k2 v2 t))
        = 34 :: escapeString k ++ [34, 58] ++ stringify v ++
            44 :: stringifyMembers (.cons k2 v2 t) := by
      simp [stringifyMembers]
    rw [h1]
    simp only [List.append_assoc, List.cons_append]
    rw [stringifyMembers_append t k2 v2 rest]
    simp [memberBytes, membersRest, List.append_assoc]
termination_by sizeOf tl

theorem delimOk_elemsRest (tl : JsonList) (rest : List Nat) :
    delimOk (elemsRest tl rest) := by
  cases tl <;> simp [elemsRest, delimOk]

theorem delimOk_membersRest (tl : JsonMembers) (rest : List Nat) :
    delimOk (membersRest tl rest) := by
  cases tl <;> simp [membersRest, delimOk]

theorem fuelJ_pos (j : Json) : 1 ≤ fuelJ j := by
  cases j with
  | null => simp [fuelJ]
  | bool b => simp [fuelJ]
  | num n => simp [fuelJ]
  | str s => simp [fuelJ]
  | arr xs => cases xs <;> simp [fuelJ]
  | obj kvs => cases kvs <;> simp [fuelJ]

theorem fuelE_pos (tl : JsonList) : 1 ≤ fuelE tl := by
  cases tl <;> simp [fuelE]

theorem fuelM_pos (tl : JsonMembers) : 1 ≤ fuelM tl := by
  cases tl <;> simp [fuelM]

/-! ## The serializer / parser round trip -/

mutual

theorem parseValue_stringify (j : Json) (fuel : Nat) (rest : List Nat)
    (hfuel : fuelJ j ≤ fuel) (hrest : delimOk rest) :
    parseValue fuel (stringify j ++ rest) = some (j, rest) := by
  obtain ⟨f, rfl⟩ : ∃ f, fuel = f + 1 := by
    have := fuelJ_pos j
    cases fuel
    · omega
    · exact ⟨_, rfl⟩
  cases j with
  | null =>
    have hs : stringify Json.null ++ rest = 110 :: 117 :: 108 :: 108 :: rest := by
      simp [stringify]
    rw [hs]
    simp [parseValue]
  | bool b =>
    cases b with
    | true =>
      have hs : stringify (Json.bool true) ++ rest
          = 116 :: 114 :: 117 :: 101 :: rest := by
        simp [stringify]
      rw [hs]
      simp [parseValue]
    | false =>
      have hs : stringify (Json.bool false) ++ rest
          = 102 :: 97 :: 108 :: 115 :: 101 :: rest := by
        simp [stringify]
      rw [hs]
      simp [parseValue]
  | num n =>
    by_cases hn : n < 0
    · have hs : stringify (Json.num n) ++ rest
          = 45 :: (natDigits (-n).toNat ++ rest) := by
        simp [stringify, intDigits, hn]
      rw [hs]
      have htd : takeDigits (natDigits (-n).toNat ++ rest)
          = (natDigits (-n).toNat, rest) :=
        takeDigits_append _ rest (natDigits_digits _) (delimOk_headNotDigit rest hrest)
      obtain ⟨d, t, hdt⟩ : ∃ d t, natDigits (-n).toNat = d :: t := by
        cases h : natDigits (-n).toNat with
        | nil => exact absurd h (natDigits_ne_nil _)
        | cons d t => exact ⟨d, t, rfl⟩
      have hval : digitsToNat (d :: t) = (-n).toNat := by
        rw [← hdt, digitsToNat_natDigits]
      have hcast : (((-n).toNat : Nat) : Int) = -n := Int.toNat_of_nonneg (by omega)
      rw [hdt] at htd
      rw [List.cons_append] at htd
      rw [hdt]
      simp [parseValue]
      rw [htd]
      simp [hval, hcast]
    · obtain ⟨d, t, hdt⟩ : ∃ d t, natDigits n.toNat = d :: t := by
        cases h : natDigits n.toNat with
        | nil => exact absurd h (natDigits_ne_nil _)
        | cons d t => exact ⟨d, t, rfl⟩
      have hd : isDigit d = true :=
        natDigits_digits n.toNat d (by rw [hdt]; exact List.mem_cons_self d t)
      have hdb := isDigit_bounds d hd
      have hs : stringify (Json.num n) ++ rest = d :: (t ++ rest) := by
        simp [stringify, intDigits, hn, hdt]
      rw [hs]
      have ht : ∀ b ∈ t, isDigit b = true := fun b hb =>
        natDigits_digits n.toNat b (by rw [hdt]; exact List.mem_cons_of_mem d hb)
      have htd : takeDigits (t ++ rest) = (t, rest) :=
        takeDigits_append t rest ht (delimOk_headNotDigit rest hrest)
      have hval : digitsToNat (d :: t) = n.toNat := by
        rw [← hdt, digitsToNat_natDigits]
      have hcast : ((n.toNat : Nat) : Int) = n := Int.toNat_of_nonneg (by omega)
      have h110 : d ≠ 110 := by omega
      have h116 : d ≠ 116 := by omega
      have h102 : d ≠ 102 := by omega
      have h34 : d ≠ 34 := by omega
      have h91 : d ≠ 91 := by omega
      have h123 : d ≠ 123 := by omega
      have h45 : d ≠ 45 := by omega
      simp [parseValue, h110, h116, h102, h34, h91, h123, h45, hd, htd, hval, hcast]
  | str s =>
    have hs : stringify (Json.str s) ++ rest
        = 34 :: (escapeString s ++ 34 :: rest) := by
      simp [stringify]
    rw [hs]
    simp [parseValue, parseStringBody_escape]
  | arr xs =>
    cases xs with
    | nil =>
      have hs : stringify (Json.arr .nil) ++ rest = 91 :: 93 :: rest := by
        simp [stringify, stringifyElems]
      rw [hs]
      simp [parseValue]
    | cons x tl =>
      have hs : stringify (Json.arr (.cons x tl)) ++ rest
          = 91 :: (stringify x ++ elemsRest tl rest) := by
        have h1 : stringify (Json.arr (.cons x tl))
            = 91 :: stringifyElems (.cons x tl) ++ [93] := by
          simp [stringify]
        rw [h1]
        simp only [List.cons_append, List.append_assoc, List.singleton_append,
          List.nil_append]
        rw [stringifyElems_append]
      rw [hs]
      obtain ⟨bx, tx, hbx, hgood⟩ := stringify_starts x
      have hfx : fuelJ x ≤ f := by
        have h1 : fuelJ (Json.arr (.cons x tl)) = 1 + max (fuelJ x) (fuelE tl) := by
          simp [fuelJ]
        rw [h1] at hfuel
        have := le_max_left (fuelJ x) (fuelE tl)
        omega
      have hfe : fuelE tl ≤ f := by
        have h1 : fuelJ (Json.arr (.cons x tl)) = 1 + max (fuelJ x) (fuelE tl) := by
          simp [fuelJ]
        rw [h1] at hfuel
        have := le_max_right (fuelJ x) (fuelE tl)
        omega
      have hx : parseValue f (stringify x ++ elemsRest tl rest)
          = some (x, elemsRest tl rest) :=
        parseValue_stringify x f (elemsRest tl rest) hfx (delimOk_elemsRest tl rest)
      have he : parseElemsRest f (elemsRest tl rest) = some (tl, rest) :=
        parseElemsRest_elemsRest tl f rest hfe hrest
      have h93 := goodStart_ne_93 bx hgood
      rw [hbx, List.cons_append] at hx ⊢
      simp [parseValue, h93, hx, he]
  | obj kvs =>
    cases kvs with
    | nil =>
      have hs : stringify (Json.obj .nil) ++ rest = 123 :: 125 :: rest := by
        simp [stringify, stringifyMembers]
      rw [hs]
      simp [parseValue]
    | cons k v tl =>
      have hs : stringify (Json.obj (.cons k v tl)) ++ rest
          = 123 :: (memberBytes k v ++ membersRest tl rest) := by
        have h1 : stringify (Json.obj (.cons k v tl))
            = 123 :: stringifyMembers (.cons k v tl) ++ [125] := by
          simp [stringify]
        rw [h1]
        simp only [List.cons_append, List.append_assoc, List.singleton_append,
          List.nil_append]
        rw [stringifyMembers_append]
      rw [hs]
      have hfv : 1 + fuelJ v ≤ f := by
        have h1 : fuelJ (Json.obj (.cons k v tl))
            = 1 + max (1 + fuelJ v) (fuelM tl) := by
          simp [fuelJ]
        rw [h1] at hfuel
        have := le_max_left (1 + fuelJ v) (fuelM tl)
        omega
      have hfm : fuelM tl ≤ f := by
        have h1 : fuelJ (Json.obj (.cons k v tl))
            = 1 + max (1 + fuelJ v) (fuelM tl) := by
          simp [fuelJ]
        rw [h1] at hfuel
        have := le_max_right (1 + fuelJ v) (fuelM tl)
        omega
      have hmem : parseMember f (memberBytes k v ++ membersRest tl rest)
          = some (k, v, membersRest tl rest) :=
        parseMember_memberBytes k v f (membersRest tl rest) hfv
          (delimOk_membersRest tl rest)
      have hms : parseMembersRest f (membersRest tl rest) = some (tl, rest) :=
        parseMembersRest_membersRest tl f rest hfm hrest
      have hmb : memberBytes k v ++ membersRest tl rest
          = 34 :: (escapeString k ++ [34, 58] ++ stringify v ++ membersRest tl rest) := by
        simp [memberBytes, List.cons_append, List.append_assoc]
      rw [hmb]
      rw [hmb] at hmem
      simp only [List.append_assoc, List.cons_append, List.nil_append] at hmem
      simp [parseValue, hmem, hms]
termination_by (sizeOf j, 0)

theorem parseElemsRest_elemsRest (tl : JsonList) (fuel : Nat) (rest : List Nat)
    (hfuel : fuelE tl ≤ fuel) (hrest : delimOk rest) :
    parseElemsRest fuel (elemsRest tl rest) = some (tl, rest) := by
  obtain ⟨f, rfl⟩ : ∃ f, fuel = f + 1 := by
    have := fuelE_pos tl
    cases fuel
    · omega
    · exact ⟨_, rfl⟩
  cases tl with
  | nil =>
    have hs : elemsRest .nil rest = 93 :: rest := by simp [elemsRest]
    rw [hs]
    simp [parseElemsRest]
  | cons y t =>
    have hs : elemsRest (.cons y t) rest
        = 44 :: (stringify y ++ elemsRest t rest) := by
      simp [elemsRest]
    rw [hs]
    have hfy : fuelJ y ≤ f := by
      have h1 : fuelE (JsonList.cons y t) = 1 + max (fuelJ y) (fuelE t) := by
        simp [fuelE]
      rw [h1] at hfuel
      have := le_max_left (fuelJ y) (fuelE t)
      omega
    have hft : fuelE t ≤ f := by
      have h1 : fuelE (JsonList.cons y t) = 1 + max (fuelJ y) (fuelE t) := by
        simp [fuelE]
      rw [h1] at hfuel
      have := le_max_right (fuelJ y) (fuelE t)
      omega
    have hy : parseValue f (stringify y ++ elemsRest t rest)
        = some (y, elemsRest t rest) :=
      parseValue_stringify y f (elemsRest t rest) hfy (delimOk_elemsRest t rest)
    have ht : parseElemsRest f (elemsRest t rest) = some (t, rest) :=
      parseElemsRest_elemsRest t f rest hft hrest
    simp [parseElemsRest, hy, ht]
termination_by (sizeOf tl, 0)

theorem parseMember_memberBytes (k : List Nat) (v : Json) (fuel : Nat)
    (rest : List Nat) (hfuel : 1 + fuelJ v ≤ fuel) (hrest : delimOk rest) :
    parseMember fuel (memberBytes k v ++ rest) = some (k, v, rest) := by
  obtain ⟨f, rfl⟩ : ∃ f, fuel = f + 1 := by
    cases fuel
    · omega
    · exact ⟨_, rfl⟩
  have hs : memberBytes k v ++ rest
      = 34 :: (escapeString k ++ 34 :: (58 :: (stringify v ++ rest))) := by
    simp [memberBytes, List.cons_append, List.append_assoc]
  rw [hs]
  have hv : parseValue f (stringify v ++ rest) = some (v, rest) :=
    parseValue_stringify v f rest (by omega) hrest
  simp [parseMember, parseStringBody_escape, hv]
termination_by (sizeOf v, 1)

theorem parseMembersRest_membersRest (tl : JsonMembers) (fuel : Nat)
    (rest : List Nat) (hfuel : fuelM tl ≤ fuel) (hrest : delimOk rest) :
    parseMembersRest fuel (membersRest tl rest) = some (tl, rest) := by
  obtain ⟨f, rfl⟩ : ∃ f, fuel = f + 1 := by
    have := fuelM_pos tl
    cases fuel
    · omega
    · exact ⟨_, rfl⟩
  cases tl with
  | nil =>
    have hs : membersRest .nil rest = 125 :: rest := by simp [membersRest]
    rw [hs]
    simp [parseMembersRest]
  | cons k v t =>
    have hs : membersRest (.cons k v t) rest
        = 44 :: (memberBytes k v ++ membersRest t rest) := by
      simp [membersRest]
    rw [hs]
    have hfv : 1 + fuelJ v ≤ f := by
      have h1 : fuelM (JsonMembers.cons k v t)
          = 1 + max (1 + fuelJ v) (fuelM t) := by
        simp [fuelM]
      rw [h1] at hfuel
      have := le_max_left (1 + fuelJ v) (fuelM t)
      omega
    have hft : fuelM t ≤ f := by
      have h1 : fuelM (JsonMembers.cons k v t)
          = 1 + max (1 + fuelJ v) (fuelM t) := by
        simp [fuelM]
      rw [h1] at hfuel
      have := le_max_right (1 + fuelJ v) (fuelM t)
      omega
    have hm : parseMember f (memberBytes k v ++ membersRest t rest)
        = some (k, v, membersRest t rest) :=
      parseMember_memberBytes k v f (membersRest t rest) hfv (delimOk_membersRest t rest)
    have ht : parseMembersRest f (membersRest t rest) = some (t, rest) :=
      parseMembersRest_membersRest t f rest hft hrest
    simp [parseMembersRest, hm, ht]
termination_by (sizeOf tl, 0)

end

/-! ## Fuel bounds and the top-level parse of a serialized value -/

theorem elemsRest_len_pos (tl : JsonList) (rest : List Nat) :
    1 ≤ (elemsRest tl rest).length := by
  cases tl <;> simp [elemsRest]

theorem membersRest_len_pos (tl : JsonMembers) (rest : List Nat) :
    1 ≤ (membersRest tl rest).length := by
  cases tl <;> simp [membersRest]

theorem memberBytes_len (k : List Nat) (v : Json) :
    (memberBytes k v).length
      = 3 + (escapeString k).length + (stringify v).length := by
  simp [memberBytes]
  omega

theorem stringify_arr_cons_len (x : Json) (tl : JsonList) :
    (stringify (Json.arr (.cons x tl))).length
      = 1 + (stringify x).length + (elemsRest tl []).length := by
  have h1 : stringify (Json.arr (.cons x tl))
      = 91 :: stringifyElems (.cons x tl) ++ [93] := by
    simp [stringify]
  have h2 := congrArg List.length (stringifyElems_append tl x [])
  simp only [List.length_append, List.length_cons, List.length_nil] at h2
  rw [h1]
  simp only [List.length_append, List.length_cons, List.length_nil]
  omega

theorem stringify_obj_cons_len (k : List Nat) (v : Json) (tl : JsonMembers) :
    (stringify (Json.obj (.cons k v tl))).length
      = 1 + (memberBytes k v).length + (membersRest tl []).length := by
  have h1 : stringify (Json.obj (.cons k v tl))
      = 123 :: stringifyMembers (.cons k v tl) ++ [125] := by
    simp [stringify]
  have h2 := congrArg List.length (stringifyMembers_append tl k v [])
  simp only [List.length_append, List.length_cons, List.length_nil] at h2
  rw [h1]
  simp only [List.length_append, List.length_cons, List.length_nil]
  omega

mutual

theorem fuelJ_le (j : Json) : fuelJ j ≤ (stringify j).length + 1 := by
  cases j with
  | null => simp [fuelJ, stringify]
  | bool b => cases b <;> simp [fuelJ, stringify]
  | num n => have := fuelJ_pos (Json.num n); simp [fuelJ] at this ⊢
  | str s => simp [fuelJ, stringify]
  | arr xs =>
    cases xs with
    | nil => simp [fuelJ, stringify, stringifyElems]
    | cons x tl =>
      have h1 : fuelJ (Json.arr (.cons x tl)) = 1 + max (fuelJ x) (fuelE tl) := by
        simp [fuelJ]
      have h2 := stringify_arr_cons_len x tl
      have h3 := fuelJ_le x
      have h4 := fuelE_le tl
      have h5 := elemsRest_len_pos tl ([] : List Nat)
      have hmax : max (fuelJ x) (fuelE tl)
          ≤ (stringify x).length + (elemsRest tl []).length := by
        apply max_le
        · omega
        · omega
      omega
  | obj kvs =>
    cases kvs with
    | nil => simp [fuelJ, stringify, stringifyMembers]
    | cons k v tl =>
      have h1 : fuelJ (Json.obj (.cons k v tl))
          = 1 + max (1 + fuelJ v) (fuelM tl) := by
        simp [fuelJ]
      have h2 := stringify_obj_cons_len k v tl
      have h3 := fuelJ_le v
      have h4 := fuelM_le tl
      have h5 := memberBytes_len k v
      have hmax : max (1 + fuelJ v) (fuelM tl)
          ≤ (memberBytes k v).length + (membersRest tl []).length := by
        apply max_le
        · have := membersRest_len_pos tl ([] : List Nat)
          omega
        · omega
      omega
termination_by (sizeOf j, 0)

theorem fuelE_le (tl : JsonList) : fuelE tl ≤ (elemsRest tl []).length := by
  cases tl with
  | nil => simp [fuelE, elemsRest]
  | cons y t =>
    have h1 : fuelE (JsonList.cons y t) = 1 + max (fuelJ y) (fuelE t) := by
      simp [fuelE]
    have h2 : (elemsRest (JsonList.cons y t) []).length
        = 1 + (stringify y).length + (elemsRest t []).length := by
      simp [elemsRest]
      omega
    have h3 := fuelJ_le y
    have h4 := fuelE_le t
    have h5 := elemsRest_len_pos t ([] : List Nat)
    have hmax : max (fuelJ y) (fuelE t)
        ≤ (stringify y).length + (elemsRest t []).length := by
      apply max_le
      · omega
      · omega
    omega
termination_by (sizeOf tl, 0)

theorem fuelM_le (tl : JsonMembers) : fuelM tl ≤ (membersRest tl []).length := by
  cases tl with
  | nil => simp [fuelM, membersRest]
  | cons k v t =>
    have h1 : fuelM (JsonMembers.cons k v t) = 1 + max (1 + fuelJ v) (fuelM t) := by
      simp [fuelM]
    have h2 : (membersRest (JsonMembers.cons k v t) []).length
        = 1 + (memberBytes k v).length + (membersRest t []).length := by
      simp [membersRest]
      omega
    have h3 := fuelJ_le v
    have h4 := fuelM_le t
    have h5 := membersRest_len_pos t ([] : List Nat)
    have h6 := memberBytes_len k v
    have hmax : max (1 + fuelJ v) (fuelM t)
        ≤ (memberBytes k v).length + (membersRest t []).length := by
      apply max_le
      · omega
      · omega
    omega
termination_by (sizeOf tl, 0)

end

theorem parse_stringify (j : Json) : parse (stringify j) = some j := by
  unfold parse
  have hf : fuelJ j ≤ (stringify j).length + 1 := fuelJ_le j
  have h : parseValue ((stringify j).length + 1) (stringify j ++ []) = some (j, []) :=
    parseValue_stringify j _ [] hf (by simp [delimOk])
  rw [List.append_nil] at h
  rw [h]

/-! ## Decoder lemmas -/

theorem int32le_len (n : Int) : (int32le n).length = 4 := by
  simp [int32le]

theorem bufSlice_header (hdr payload : List Nat) (len : Int)
    (hh : hdr.length = 8) (hp : (payload.length : Int) ≤ len) :
    bufSlice (hdr ++ payload) 8 (len + 8) = payload := by
  simp only [bufSlice]
  have hn : ((hdr ++ payload).length : Int) = 8 + (payload.length : Int) := by
    simp [List.length_append, hh]
  rw [if_neg (by omega), if_neg (by omega)]
  have h1 : min (8 : Int) ((hdr ++ payload).length : Int) = 8 := by
    rw [min_eq_left]
    omega
  have h2 : min (len + 8) ((hdr ++ payload).length : Int)
      = ((hdr ++ payload).length : Int) := by
    rw [min_eq_right]
    omega
  rw [h1, h2]
  have h3 : (((hdr ++ payload).length : Int)).toNat = (hdr ++ payload).length := by
    omega
  rw [h3, List.take_length]
  have h4 : ((8 : Int)).toNat = hdr.length := by
    omega
  rw [h4, List.drop_left]

theorem decodeChunk_first (op len : Int) (payload : List Nat)
    (hop : int32Writable op) (hlen : int32Writable len)
    (hple : (payload.length : Int) ≤ len) :
    decodeChunk initState (int32le op ++ int32le len ++ payload)
      = match parse payload with
        | some data => .ok (⟨[], none⟩, some (some op, data))
        | none => .ok (⟨payload, some op⟩, none) := by
  have hread0 : readInt32LE (int32le op ++ int32le len ++ payload) 0 = some op := by
    rw [List.append_assoc]
    exact readInt32LE_int32le op _ hop
  have hread4 : readInt32LE (int32le op ++ int32le len ++ payload) 4 = some len := by
    rw [List.append_assoc]
    have h4 : (4 : Nat) = (int32le op).length := (int32le_len op).symm
    rw [h4, readInt32LE_shift]
    exact readInt32LE_int32le len payload hlen
  have hslice : bufSlice (int32le op ++ int32le len ++ payload) 8 (len + 8)
      = payload := by
    apply bufSlice_header
    · simp [int32le]
    · exact hple
  simp only [decodeChunk, initState, if_true, hread0, hread4, hslice,
    List.nil_append]

theorem decodeChunk_cont (acc p : List Nat) (op : Option Int) (hacc : acc ≠ [])
    (hp : parse (acc ++ p) = none) :
    decodeChunk ⟨acc, op⟩ p = .ok (⟨acc ++ p, op⟩, none) := by
  simp only [decodeChunk]
  rw [if_neg hacc]
  simp only [hp]

theorem decodeChunk_done (acc p : List Nat) (op : Option Int) (j : Json)
    (hacc : acc ≠ []) (hp : parse (acc ++ p) = some j) :
    decodeChunk ⟨acc, op⟩ p = .ok (⟨[], none⟩, some (op, j)) := by
  simp only [decodeChunk]
  rw [if_neg hacc]
  simp only [hp]

theorem decodeChunks_cons (st : DecState) (p : List Nat) (rest : List (List Nat)) :
    decodeChunks st (p :: rest)
      = match decodeChunk st p with
        | .error _ => ⟨st, [], true⟩
        | .ok (st2, ev) =>
          ⟨(decodeChunks st2 rest).state, ev.toList ++ (decodeChunks st2 rest).events,
            (decodeChunks st2 rest).crashed⟩ := rfl

theorem decode_pieces (pieces : List (List Nat)) (op : Int) (j : Json) :
    ∀ acc : List Nat, acc ≠ [] → pieces ≠ [] →
      acc ++ pieces.flatten = stringify j →
      (∀ k, 0 < k → k < pieces.length → parse (acc ++ (pieces.take k).flatten) = none) →
      decodeChunks ⟨acc, some op⟩ pieces = ⟨initState, [(some op, j)], false⟩ := by
  induction pieces with
  | nil =>
    intro acc _ hne _ _
    exact absurd rfl hne
  | cons p ps ih =>
    intro acc hacc _ hjoin hfail
    cases ps with
    | nil =>
      have hpj : parse (acc ++ p) = some j := by
        have h1 : acc ++ p = stringify j := by
          simpa using hjoin
        rw [h1, parse_stringify]
      simp only [decodeChunks, decodeChunk_done acc p (some op) j hacc hpj]
      simp [decodeChunks, initState]
    | cons p2 ps2 =>
      have hfail1 : parse (acc ++ p) = none := by
        have h := hfail 1 (by omega) (by simp)
        simpa using h
      have hstep := decodeChunk_cont acc p (some op) hacc hfail1
      have hacc2 : acc ++ p ≠ [] := by
        intro h
        exact hacc (List.append_eq_nil.mp h).1
      have hjoin2 : (acc ++ p) ++ (p2 :: ps2).flatten = stringify j := by
        rw [List.append_assoc]
        simpa using hjoin
      have hfail2 : ∀ k, 0 < k → k < (p2 :: ps2).length →
          parse ((acc ++ p) ++ ((p2 :: ps2).take k).flatten) = none := by
        intro k hk0 hklen
        have h := hfail (k + 1) (by omega) (by simp at hklen ⊢; omega)
        have hshape : acc ++ ((p :: p2 :: ps2).take (k + 1)).flatten
            = (acc ++ p) ++ ((p2 :: ps2).take k).flatten := by
          simp [List.append_assoc]
        rw [← hshape]
        exact h
      have hrec := ih (acc ++ p) hacc2 (by simp) hjoin2 hfail2
      rw [decodeChunks_cons]
      simp only [hstep]
      rw [hrec]
      simp

/-! ## Claim C1: frame codec round trip -/

/-- C1 (amended): round trip of the frame codec under chunked delivery.
For every opcode and payload accepted by `encode`, delivering the encoded
frame to the reassembly decoder yields exactly the one decoded event
`(O, P)` and returns the state to empty, for every split in which the first
chunk carries the entire 8-byte header plus a payload prefix (nonempty
unless it is the only chunk) and no intermediate reassembled payload prefix
already parses as JSON.  The original arbitrary-boundary claim fails: a
split inside the header crashes the decoder (see the counterexample). -/
theorem c1_chunked_roundtrip (op : Int) (j : Json) (s1 : List Nat)
    (pieces : List (List Nat))
    (hop : int32Writable op) (hlen : int32Writable ((stringify j).length : Int))
    (hsplit : s1 ++ pieces.flatten = stringify j)
    (hfail : ∀ k, k < pieces.length → parse (s1 ++ (pieces.take k).flatten) = none)
    (hne : pieces ≠ [] → s1 ≠ []) :
    decodeChunks initState
        ((int32le op ++ int32le ((stringify j).length : Int) ++ s1) :: pieces)
      = ⟨initState, [(some op, j)], false⟩ := by
  have hple : (s1.length : Int) ≤ ((stringify j).length : Int) := by
    have h := congrArg List.length hsplit
    simp only [List.length_append] at h
    omega
  have hfirst := decodeChunk_first op ((stringify j).length : Int) s1 hop hlen hple
  cases pieces with
  | nil =>
    have hs1 : s1 = stringify j := by simpa using hsplit
    rw [decodeChunks_cons, hfirst, hs1, parse_stringify]
    simp [decodeChunks, initState]
  | cons p ps =>
    have hf0 : parse s1 = none := by
      have h := hfail 0 (by simp)
      simpa using h
    have hrec := decode_pieces (p :: ps) op j s1 (hne (by simp)) (by simp)
      hsplit (fun k _ hklen => hfail k hklen)
    rw [decodeChunks_cons, hfirst]
    simp only [hf0]
    rw [hrec]
    simp

/-- C1 witness: opcode 1 with payload null, header plus the first two
payload bytes in the first chunk and the remaining two bytes in a second
chunk, decodes to exactly the one event. -/
theorem c1_chunked_roundtrip_witness :
    decodeChunks initState
        ((int32le 1 ++ int32le ((stringify Json.null).length : Int) ++ [110, 117])
          :: [[108, 108]])
      = ⟨initState, [(some 1, Json.null)], false⟩ :=
  c1_chunked_roundtrip 1 Json.null [110, 117] [[108, 108]] (by decide) (by decide)
    (by decide) (by decide) (by decide)

/-- C1 counterexample: splitting the encoded frame inside the 8-byte header
makes the decoder read a 4-byte packet header with `readInt32LE(4)`, which
throws: the run crashes and yields no event at all, refuting the claim that
decode yields `(O, P)` for every split at arbitrary byte boundaries. -/
theorem c1_header_split_counterexample :
    decodeChunks initState
        [((encode 1 Json.null).getD []).take 4, ((encode 1 Json.null).getD []).drop 4]
        = ⟨initState, [], true⟩
    ∧ decodeChunks initState
        [((encode 1 Json.null).getD []).take 4, ((encode 1 Json.null).getD []).drop 4]
        ≠ ⟨initState, [(some 1, Json.null)], false⟩ := by
  decide

/-! ## Claim C2: several frames in a single read -/

/-- C2 (code bug): when two complete frames are delivered in one read,
`socket.read()` returns both in a single packet; decode reads the first
header, `slice(8, len + 8)` keeps exactly the first payload and silently
drops the trailing bytes, and the recursive call finds the buffer empty.
Only the first frame is decoded; the second is lost.  The same two frames
arriving as two separate reads are both decoded, in order. -/
theorem c2_second_frame_dropped :
    decodeChunks initState
        [((encode 1 Json.null).getD []) ++ ((encode 1 (Json.bool true)).getD [])]
      = ⟨initState, [(some 1, Json.null)], false⟩
    ∧ decodeChunks initState
        [((encode 1 Json.null).getD []), ((encode 1 (Json.bool true)).getD [])]
      = ⟨initState, [(some 1, Json.null), (some 1, Json.bool true)], false⟩ := by
  decide

/-! ## Map-model lemmas -/

theorem mapLookup_update {K E : Type} [DecidableEq K] (m : List (K × E)) (k : K)
    (e : E) (hp : (m.find? fun p => decide (p.1 = k)).isSome = true) :
    mapLookup (m.map fun p => if p.1 = k then (k, e) else p) k = some e := by
  induction m with
  | nil => simp at hp
  | cons q m ih =>
    by_cases hq : q.1 = k
    · unfold mapLookup
      rw [List.map_cons, if_pos hq, List.find?_cons_of_pos _ (by simp)]
      simp
    · unfold mapLookup
      rw [List.map_cons, if_neg hq, List.find?_cons_of_neg _ (by simp [hq])]
      rw [List.find?_cons_of_neg _ (by simp [hq])] at hp
      exact ih hp

theorem mapLookup_append_absent {K E : Type} [DecidableEq K] (m : List (K × E))
    (k : K) (e : E)
    (hp : (m.find? fun p => decide (p.1 = k)).isSome = false) :
    mapLookup (m ++ [(k, e)]) k = some e := by
  induction m with
  | nil => simp [mapLookup, List.find?]
  | cons q m ih =>
    by_cases hq : q.1 = k
    · rw [List.find?_cons_of_pos _ (by simp [hq])] at hp
      simp at hp
    · unfold mapLookup
      rw [List.cons_append, List.find?_cons_of_neg _ (by simp [hq])]
      rw [List.find?_cons_of_neg _ (by simp [hq])] at hp
      exact ih hp

theorem mapLookup_mapSet {K E : Type} [DecidableEq K] (m : List (K × E)) (k : K)
    (e : E) : mapLookup (mapSet m k e) k = some e := by
  unfold mapSet
  split
  · next hp => exact mapLookup_update m k e hp
  · next hp =>
    exact mapLookup_append_absent m k e (by simpa only [Bool.not_eq_true] using hp)

theorem mapLookup_mapDelete {K E : Type} [DecidableEq K] (m : List (K × E))
    (k : K) : mapLookup (mapDelete m k) k = none := by
  induction m with
  | nil => simp [mapDelete, mapLookup]
  | cons q m ih =>
    by_cases hq : q.1 = k
    · unfold mapDelete at ih ⊢
      rw [List.filter_cons_of_neg (by simp [hq])]
      exact ih
    · unfold mapDelete at ih ⊢
      rw [List.filter_cons_of_pos (by simp [hq])]
      unfold mapLookup at ih ⊢
      rw [List.find?_cons_of_neg _ (by simp [hq])]
      exact ih

/-! ## Claim C6: response cache TTL -/

/-- C6 (amended): after `set(K, V)` at time `t0`, every write stores the
fresh expiry `t0 + ttl`; a `get(K)` at any `t ≤ t0 + ttl` (up to and
including the expiry instant) returns `V`; a `get(K)` at any `t > t0 + ttl`
(strictly after expiry, i.e. exactly when `now > expiresAt`) misses and
removes the entry.  The original claim of a miss at `t = t0 + ttl` is
refuted by the boundary counterexample. -/
theorem c6_cache_ttl {K V : Type} [DecidableEq K] (c : ResponseCache K V)
    (t0 t : Int) (k : K) (v : V) :
    mapLookup (ResponseCache.set c t0 k v).cache k = some ⟨v, t0 + c.ttl⟩
    ∧ (t ≤ t0 + c.ttl → ((ResponseCache.set c t0 k v).get t k).1 = some v)
    ∧ (t > t0 + c.ttl →
        ((ResponseCache.set c t0 k v).get t k).1 = none
        ∧ mapLookup (((ResponseCache.set c t0 k v).get t k).2).cache k = none) := by
  have hset : mapLookup (ResponseCache.set c t0 k v).cache k
      = some ⟨v, t0 + c.ttl⟩ := by
    unfold ResponseCache.set
    exact mapLookup_mapSet c.cache k ⟨v, t0 + c.ttl⟩
  refine ⟨hset, ?_, ?_⟩
  · intro ht
    simp only [ResponseCache.get, hset]
    rw [if_neg (by omega)]
  · intro ht
    simp only [ResponseCache.get, hset]
    rw [if_pos (by omega)]
    refine ⟨rfl, ?_⟩
    exact mapLookup_mapDelete _ k

/-- C6 witness: ttl 5 and a write at time 0: the stored expiry is 5, a read
at time 3 hits, a read at time 9 misses and evicts. -/
theorem c6_cache_ttl_witness :
    mapLookup ((ResponseCache.mk ([] : List (Nat × CacheEntry Nat)) 5).set 0 1 7).cache 1
        = some ⟨7, 5⟩
    ∧ (((ResponseCache.mk ([] : List (Nat × CacheEntry Nat)) 5).set 0 1 7).get 3 1).1
        = some 7
    ∧ ((((ResponseCache.mk ([] : List (Nat × CacheEntry Nat)) 5).set 0 1 7).get 9 1).1
          = none
        ∧ mapLookup ((((ResponseCache.mk ([] : List (Nat × CacheEntry Nat)) 5).set
            0 1 7).get 9 1).2).cache 1 = none) := by
  refine ⟨?_, ?_, ?_⟩
  · exact (c6_cache_ttl (ResponseCache.mk [] 5) 0 3 1 7).1
  · exact (c6_cache_ttl (ResponseCache.mk [] 5) 0 3 1 7).2.1 (by decide)
  · exact (c6_cache_ttl (ResponseCache.mk [] 5) 0 9 1 7).2.2 (by decide)

/-- C6 counterexample: at exactly `t = t0 + ttl` the guard `now > expires`
is false, so the read returns the stored value; the claim requires a miss
at every `t ≥ t0 + ttl`. -/
theorem c6_boundary_counterexample :
    (((ResponseCache.mk ([] : List (Nat × CacheEntry Nat)) 5).set 0 1 7).get 5 1).1
      = some 7 := by
  decide

/-! ## Claim C8: candidate endpoint walk of getIPC -/

/-- C8 (code bug): the retry guard `id < 10` runs before the increment, so
getIPC walks instances 0 through 10 (eleven candidates), not 0 through 9 as
the claim and the typings documentation state.  With only instance 10
accepting, the walk succeeds at instance 10 where the claim requires
ConnectionFailed; with no instance accepting it fails with
ConnectionFailed; the first accepting candidate wins. -/
theorem c8_tries_instance_ten :
    getIPC (fun i => i == 10) 0 = some 10
    ∧ getIPC (fun _ => false) 0 = none
    ∧ getIPC (fun i => i == 3) 0 = some 3 := by
  refine ⟨?_, ?_, ?_⟩ <;> simp [getIPC]

/-! ## Claim C9: batchRequest aggregation -/

/-- C9 (code bug): with batching enabled, every buffered item of one
`batchRequest` call carries the same `resolve` (that call's single
promise), so `_processBatch` invokes it once per item and only the first
invocation settles the promise: a caller that batched the requests
`[1, 2]` observes only the first result `10`, while the batching-disabled
path returns the full ordered list `[10, 20]` of its results. -/
theorem c9_shared_resolve :
    (processBatch (fun r => r * 10)
        (batchRequestEnabled (⟨[], false⟩ : BatchState Nat) 0 [1, 2])).2
      = [(0, 10), (0, 20)]
    ∧ firstSettle ((processBatch (fun r => r * 10)
        (batchRequestEnabled (⟨[], false⟩ : BatchState Nat) 0 [1, 2])).2) 0
      = some 10
    ∧ batchRequestDisabled (fun r => r * 10) [1, 2] = [10, 20] := by
  decide

/-! ## Client-state lemmas -/

theorem contains_iff_mem (l : List Nat) (n : Nat) : l.contains n = true ↔ n ∈ l := by
  simp [List.contains, List.elem_iff]

theorem registerAll_expecting (ns : List Nat) : ∀ st : ClientState,
    ns.Nodup → (∀ n ∈ ns, st.expecting.contains n = false) →
    (registerAll st ns).expecting = st.expecting ++ ns := by
  induction ns with
  | nil =>
    intro st _ _
    simp [registerAll]
  | cons n ns ih =>
    intro st hnd hfresh
    have hn : st.expecting.contains n = false := hfresh n (List.mem_cons_self n ns)
    have hstep : (registerRequest st n).1.expecting = st.expecting ++ [n] := by
      unfold registerRequest
      rw [if_neg (by intro h; rw [hn] at h; simp at h)]
    have hrest : ∀ m ∈ ns, ((registerRequest st n).1.expecting).contains m = false := by
      intro m hm
      rw [hstep]
      have hm1 : st.expecting.contains m = false := hfresh m (List.mem_cons_of_mem n hm)
      have hm2 : m ≠ n := by
        intro h
        subst h
        exact (List.nodup_cons.mp hnd).1 hm
      rw [Bool.eq_false_iff]
      intro hcon
      rcases List.mem_append.mp ((contains_iff_mem _ m).mp hcon) with h | h
      · rw [Bool.eq_false_iff] at hm1
        exact hm1 ((contains_iff_mem _ m).mpr h)
      · simp at h
        exact hm2 h
    have h := ih (registerRequest st n).1 (List.nodup_cons.mp hnd).2 hrest
    unfold registerAll at h ⊢
    simp only [List.foldl_cons]
    rw [h, hstep, List.append_assoc]
    simp

/-! ## Claim C3: connection loss rejects all pending requests -/

/-- C3 (amended): when the transport closes with pending requests, every
pending request is rejected with a ConnectionError, in registration order,
followed by the `disconnected` emission and the rejection of the connect
promise; but the `_expecting` table is NOT cleared: it still holds every
entry afterwards (the original claim of an empty table is refuted by the
counterexample). -/
theorem c3_close_rejections (st0 : ClientState) (ns : List Nat)
    (h0 : st0.expecting = []) (hnd : ns.Nodup) :
    (onClose (registerAll st0 ns)).2
      = (ns.map fun n => Action.rejectReq n .ConnectionError)
        ++ [.emitDisconnected, .rejectConnect .ConnectionError]
    ∧ (onClose (registerAll st0 ns)).1.expecting = ns := by
  have hexp : (registerAll st0 ns).expecting = ns := by
    have h := registerAll_expecting ns st0 hnd (by intro n _; rw [h0]; rfl)
    rw [h0] at h
    simpa using h
  unfold onClose
  rw [hexp]
  exact ⟨rfl, rfl⟩

/-- C3 witness: three requests registered into a fresh client, then the
transport closes. -/
theorem c3_close_rejections_witness :
    (onClose (registerAll client0 [1, 2, 3])).2
      = [Action.rejectReq 1 .ConnectionError, Action.rejectReq 2 .ConnectionError,
         Action.rejectReq 3 .ConnectionError, .emitDisconnected,
         .rejectConnect .ConnectionError]
    ∧ (onClose (registerAll client0 [1, 2, 3])).1.expecting = [1, 2, 3] := by
  have h := c3_close_rejections client0 [1, 2, 3] rfl (by decide)
  simpa using h

/-- C3 counterexample: after the close handler ran with three pending
requests, the pending table still holds all three entries; the claim says
it is empty. -/
theorem c3_table_not_cleared :
    (onClose (registerAll client0 [1, 2, 3])).1.expecting = [1, 2, 3]
    ∧ (onClose (registerAll client0 [1, 2, 3])).1.expecting ≠ [] := by
  decide

/-! ## Claim C7: request timeout -/

/-- C7 (confirmed): when the timeout timer of a pending request fires, the
request is rejected with RpcTimeout and its entry removed from the pending
table; a message carrying that nonce arriving afterwards settles nothing
(it leaves the table unchanged and only emits a broadcast or the connected
notification). -/
theorem c7_timeout_rejection (st : ClientState) (n : Nat) (m : RpcMessage)
    (hn : st.timers.contains n = true) (hnd : st.expecting.Nodup)
    (hm : m.nonce = some n) :
    (fireTimeout st n).2 = [.rejectReq n .RpcTimeout]
    ∧ (fireTimeout st n).1.expecting.contains n = false
    ∧ (onRpcMessage (fireTimeout st n).1 m).1 = (fireTimeout st n).1
    ∧ ((onRpcMessage (fireTimeout st n).1 m).2.all fun a => !(a.settles n)) = true := by
  have hft : fireTimeout st n
      = ({ st with expecting := st.expecting.erase n, timers := st.timers.erase n },
         [.rejectReq n .RpcTimeout]) := by
    unfold fireTimeout
    rw [if_pos hn]
  have hnotmem : ¬ n ∈ st.expecting.erase n := hnd.not_mem_erase
  have hcon : (st.expecting.erase n).contains n = false := by
    rw [Bool.eq_false_iff]
    intro h
    exact hnotmem ((contains_iff_mem _ n).mp h)
  rw [hft]
  refine ⟨rfl, hcon, ?_, ?_⟩
  · unfold onRpcMessage
    split
    · rfl
    · rw [hm]
      simp only [hcon]
      rfl
  · unfold onRpcMessage
    split
    · simp [Action.settles]
    · rw [hm]
      simp only [hcon]
      simp [Action.settles]

/-- C7 witness: a single pending request with nonce 5 times out; the late
message carrying nonce 5 settles nothing. -/
theorem c7_timeout_rejection_witness :
    (fireTimeout (registerAll client0 [5]) 5).2 = [.rejectReq 5 .RpcTimeout]
    ∧ (fireTimeout (registerAll client0 [5]) 5).1.expecting.contains 5 = false
    ∧ (onRpcMessage (fireTimeout (registerAll client0 [5]) 5).1
        ⟨"GET_GUILD", none, some 5, Json.null⟩).1
        = (fireTimeout (registerAll client0 [5]) 5).1
    ∧ ((onRpcMessage (fireTimeout (registerAll client0 [5]) 5).1
        ⟨"GET_GUILD", none, some 5, Json.null⟩).2.all
          fun a => !(a.settles 5)) = true := by
  exact c7_timeout_rejection (registerAll client0 [5]) 5
    ⟨"GET_GUILD", none, some 5, Json.null⟩ (by decide) (by decide) rfl

/-! ## Claim C10: connect promise memoization -/

/-- C10 (confirmed): once `_connectPromise` is memoized, every further
`connect` call (with any client id) returns that same promise, performs no
transport action and leaves the state unchanged; none of the message,
timeout, close or connected handlers ever clears the memo; a first connect
on a fresh client memoizes the promise it returns and starts the transport;
and only the `_tryReconnect` path replaces the memo (with a fresh
promise). -/
theorem c10_connect_memoization (st st0 : ClientState) (cid cid2 n : Nat)
    (m : RpcMessage) (p : Nat) (hmemo : st.connectPromise = some p)
    (h0 : st0.connectPromise = none) :
    connect st cid = (st, p, [])
    ∧ (registerRequest st n).1.connectPromise = some p
    ∧ (fireTimeout st n).1.connectPromise = some p
    ∧ (onRpcMessage st m).1.connectPromise = some p
    ∧ (onClose st).1.connectPromise = some p
    ∧ (onConnected st).connectPromise = some p
    ∧ (connect st0 cid).2.2 = [.transportConnect]
    ∧ (connect st0 cid).1.connectPromise = some (connect st0 cid).2.1
    ∧ connect (connect st0 cid).1 cid2
        = ((connect st0 cid).1, (connect st0 cid).2.1, [])
    ∧ (st.reconnectAttempts < st.maxReconnectAttempts →
        ((tryReconnect st cid).1).state.connectPromise = some st.nextPromise) := by
  refine ⟨?_, ?_, ?_, ?_, ?_, ?_, ?_, ?_, ?_, ?_⟩
  · unfold connect
    rw [hmemo]
  · simp [registerRequest, hmemo]
  · unfold fireTimeout
    split <;> simp [hmemo]
  · unfold onRpcMessage
    split
    · simp [hmemo]
    · split
      · split <;> simp [hmemo]
      · simp [hmemo]
  · simp [onClose, hmemo]
  · simp [onConnected, hmemo]
  · unfold connect
    rw [h0]
  · unfold connect
    rw [h0]
  · unfold connect
    rw [h0]
  · intro hlt
    unfold tryReconnect
    rw [if_neg (by omega)]
    simp [connect, ReconnectOutcome.state]

/-- C10 witness: a client with promise 7 memoized, and a fresh client. -/
theorem c10_connect_memoization_witness :
    connect ⟨[], [], some 7, 8, none, 0, 3, false⟩ 42
        = (⟨[], [], some 7, 8, none, 0, 3, false⟩, 7, [])
    ∧ (registerRequest ⟨[], [], some 7, 8, none, 0, 3, false⟩ 1).1.connectPromise
        = some 7
    ∧ (fireTimeout ⟨[], [], some 7, 8, none, 0, 3, false⟩ 1).1.connectPromise
        = some 7
    ∧ (onRpcMessage ⟨[], [], some 7, 8, none, 0, 3, false⟩
        ⟨"DISPATCH", some "READY", none, Json.null⟩).1.connectPromise = some 7
    ∧ (onClose ⟨[], [], some 7, 8, none, 0, 3, false⟩).1.connectPromise = some 7
    ∧ (onConnected ⟨[], [], some 7, 8, none, 0, 3, false⟩).connectPromise = some 7
    ∧ (connect client0 42).2.2 = [.transportConnect]
    ∧ (connect client0 42).1.connectPromise = some (connect client0 42).2.1
    ∧ connect (connect client0 42).1 43
        = ((connect client0 42).1, (connect client0 42).2.1, [])
    ∧ (((0 : Nat) < 3) →
        ((tryReconnect ⟨[], [], some 7, 8, none, 0, 3, false⟩ 42).1).state.connectPromise
          = some 8) := by
  exact c10_connect_memoization ⟨[], [], some 7, 8, none, 0, 3, false⟩ client0
    42 43 1 ⟨"DISPATCH", some "READY", none, Json.null⟩ 7 rfl rfl

/-! ## Claim C5: reconnection backoff -/

theorem afterFailures_attempts (cid : Nat) : ∀ (k : Nat) (st : ClientState),
    st.reconnectAttempts + k ≤ st.maxReconnectAttempts →
    (afterFailures cid st k).reconnectAttempts = st.reconnectAttempts + k
    ∧ (afterFailures cid st k).maxReconnectAttempts = st.maxReconnectAttempts := by
  intro k
  induction k with
  | zero =>
    intro st _
    simp [afterFailures]
  | succ k ih =>
    intro st h
    have hlt : ¬ st.reconnectAttempts ≥ st.maxReconnectAttempts := by omega
    have hone : (tryReconnect st cid).1
        = .attempt (min (1000 * 2 ^ (st.reconnectAttempts + 1)) 30000)
            { st with
                isReconnecting := true,
                reconnectAttempts := st.reconnectAttempts + 1,
                connectPromise := some st.nextPromise,
                nextPromise := st.nextPromise + 1,
                clientId := some cid }
            st.nextPromise := by
      unfold tryReconnect
      rw [if_neg hlt]
      simp [connect]
    show ((afterFailures cid st (k + 1)).reconnectAttempts = _) ∧ _
    unfold afterFailures
    rw [hone]
    have h2 := ih { st with
        isReconnecting := true,
        reconnectAttempts := st.reconnectAttempts + 1,
        connectPromise := some st.nextPromise,
        nextPromise := st.nextPromise + 1,
        clientId := some cid } (by simp; omega)
    simp at h2 ⊢
    omega

/-- C5 (confirmed): counting reconnection attempts from 1 after a
disconnect, the n-th attempt (made after n-1 failures) waits
`min(1000 * 2 ^ n, 30000)` milliseconds before calling connect again (the
counter is incremented before the delay is computed); once
`maxReconnectAttempts` attempts have failed, the next invocation emits the
fatal ConnectionFailed report and makes no further attempt; and the
`connected` handler resets the attempt counter to zero. -/
theorem c5_reconnect_backoff (maxA k cid : Nat) (st : ClientState)
    (hk : k < maxA) :
    ((tryReconnect (afterFailures cid (freshReconnect maxA) k) cid).1).delay?
        = some (min (1000 * 2 ^ (k + 1)) 30000)
    ∧ ((tryReconnect (afterFailures cid (freshReconnect maxA) maxA) cid).1).delay?
        = none
    ∧ (tryReconnect (afterFailures cid (freshReconnect maxA) maxA) cid).2
        = [.emitError .ConnectionFailedErr]
    ∧ (onConnected st).reconnectAttempts = 0 := by
  have h1 := afterFailures_attempts cid k (freshReconnect maxA)
    (by simp [freshReconnect]; omega)
  have h2 := afterFailures_attempts cid maxA (freshReconnect maxA)
    (by simp [freshReconnect])
  have hfr0 : (freshReconnect maxA).reconnectAttempts = 0 := rfl
  have hfrm : (freshReconnect maxA).maxReconnectAttempts = maxA := rfl
  rw [hfr0, hfrm] at h1 h2
  refine ⟨?_, ?_, ?_, ?_⟩
  · unfold tryReconnect
    rw [if_neg (by omega)]
    simp [ReconnectOutcome.delay?, h1.1]
  · unfold tryReconnect
    rw [if_pos (by omega)]
    simp [ReconnectOutcome.delay?]
  · unfold tryReconnect
    rw [if_pos (by omega)]
  · simp [onConnected]

/-- C5 witness: three maximum attempts; the second attempt waits
`min(1000 * 2 ^ 2, 30000)` = 4000 ms; after three failed attempts the next
invocation reports fatally without attempting. -/
theorem c5_reconnect_backoff_witness :
    ((tryReconnect (afterFailures 0 (freshReconnect 3) 1) 0).1).delay?
        = some (min (1000 * 2 ^ (1 + 1)) 30000)
    ∧ ((tryReconnect (afterFailures 0 (freshReconnect 3) 3) 0).1).delay? = none
    ∧ (tryReconnect (afterFailures 0 (freshReconnect 3) 3) 0).2
        = [.emitError .ConnectionFailedErr]
    ∧ (onConnected client0).reconnectAttempts = 0 :=
  c5_reconnect_backoff 3 1 0 client0 (by decide)

/-! ## Claim C4: admission queue -/

theorem qstep_max (st : QState) (e : QEvent) :
    (qstep st e).maxConcurrent = st.maxConcurrent := by
  cases e <;> simp only [qstep] <;> (repeat' split) <;> rfl

theorem qrun_max (evs : List QEvent) : ∀ st : QState,
    (qrun st evs).maxConcurrent = st.maxConcurrent := by
  induction evs with
  | nil => intro st; rfl
  | cons e evs ih =>
    intro st
    unfold qrun at ih ⊢
    rw [List.foldl_cons, ih (qstep st e), qstep_max]

theorem qstep_running_inv (st : QState) (e : QEvent)
    (h : st.running = (st.runningSet.length : Int)) :
    (qstep st e).running = ((qstep st e).runningSet.length : Int) := by
  cases e with
  | call i =>
    simp only [qstep]
    split
    · exact h
    · split
      · exact h
      · simp only [List.length_append, List.length_singleton]
        push_cast
        omega
  | resume i =>
    simp only [qstep]
    split
    · next hmem =>
      simp only [List.length_append, List.length_singleton]
      push_cast
      omega
    · exact h
  | complete i ok =>
    simp only [qstep]
    split
    · next hmem =>
      have hm : i ∈ st.runningSet := (contains_iff_mem _ i).mp hmem
      have hlen : (st.runningSet.erase i).length = st.runningSet.length - 1 :=
        List.length_erase_of_mem hm
      have hpos : 1 ≤ st.runningSet.length := List.length_pos.mpr
        (List.ne_nil_of_mem hm)
      split
      · simp only [hlen]
        omega
      · simp only [hlen]
        omega
    · exact h

theorem qstep_log_inv (st : QState) (e : QEvent)
    (h : st.enqueuedLog = st.wokenLog ++ st.queue) :
    (qstep st e).enqueuedLog = (qstep st e).wokenLog ++ (qstep st e).queue := by
  cases e with
  | call i =>
    simp only [qstep]
    split
    · exact h
    · split
      · simp only [h, List.append_assoc]
      · exact h
  | resume i =>
    simp only [qstep]
    split
    · exact h
    · exact h
  | complete i ok =>
    simp only [qstep]
    split
    · split
      · next hq => exact h
      · next w rest hq =>
        simp only [h, hq, List.append_assoc, List.singleton_append]
    · exact h

theorem qrun_invariants (evs : List QEvent) : ∀ st : QState,
    st.running = (st.runningSet.length : Int) →
    st.enqueuedLog = st.wokenLog ++ st.queue →
    (qrun st evs).running = ((qrun st evs).runningSet.length : Int)
    ∧ (qrun st evs).enqueuedLog = (qrun st evs).wokenLog ++ (qrun st evs).queue := by
  induction evs with
  | nil =>
    intro st h1 h2
    exact ⟨h1, h2⟩
  | cons e evs ih =>
    intro st h1 h2
    unfold qrun at ih ⊢
    rw [List.foldl_cons]
    exact ih (qstep st e) (qstep_running_inv st e h1) (qstep_log_inv st e h2)

theorem qstep_bound (st : QState) (e : QEvent)
    (hA : st.running = (st.runningSet.length : Int))
    (hK : st.running + (st.wokenSet.length : Int) ≤ (st.maxConcurrent : Int))
    (hsafe : match e with | .call _ => st.wokenSet.isEmpty = true | _ => True) :
    (qstep st e).running + ((qstep st e).wokenSet.length : Int)
      ≤ ((qstep st e).maxConcurrent : Int) := by
  cases e with
  | call i =>
    have hw : st.wokenSet = [] := List.isEmpty_iff.mp hsafe
    simp only [qstep]
    split
    · exact hK
    · split
      · simpa using hK
      · simp only [hw, List.length_nil] at hK ⊢
        next hlt =>
        push_cast at hK ⊢
        omega
  | resume i =>
    simp only [qstep]
    split
    · next hmem =>
      have hm : i ∈ st.wokenSet := (contains_iff_mem _ i).mp hmem
      have hlen : (st.wokenSet.erase i).length = st.wokenSet.length - 1 :=
        List.length_erase_of_mem hm
      have hpos : 1 ≤ st.wokenSet.length := List.length_pos.mpr
        (List.ne_nil_of_mem hm)
      simp only [hlen]
      omega
    · exact hK
  | complete i ok =>
    simp only [qstep]
    split
    · split
      · dsimp only
        omega
      · dsimp only
        simp only [List.length_append, List.length_singleton]
        push_cast
        omega
    · exact hK

theorem qrun_bound (evs : List QEvent) : ∀ st : QState,
    st.running = (st.runningSet.length : Int) →
    st.running + (st.wokenSet.length : Int) ≤ (st.maxConcurrent : Int) →
    safeTrace st evs = true →
    (qrun st evs).running + ((qrun st evs).wokenSet.length : Int)
      ≤ ((qrun st evs).maxConcurrent : Int) := by
  induction evs with
  | nil =>
    intro st _ hK _
    exact hK
  | cons e evs ih =>
    intro st hA hK hsafe
    unfold safeTrace at hsafe
    rw [Bool.and_eq_true] at hsafe
    unfold qrun at ih ⊢
    rw [List.foldl_cons]
    refine ih (qstep st e) (qstep_running_inv st e hA) ?_ hsafe.2
    apply qstep_bound st e hA hK
    cases e with
    | call i => exact hsafe.1
    | resume i => trivial
    | complete i ok => trivial

/-- C4 (amended): over every interleaving of `add` callers, (a) the running
counter always equals the number of in-flight admitted requests — it is
decremented exactly once per admitted request when its function settles,
identically for success and failure (the finally block); (b) waiters are
woken in FIFO order: the wake log is always a prefix of the enqueue log,
with the still-queued ids making up the rest; (c) the bound
`running ≤ maxConcurrent` holds for every race-free trace, i.e. whenever no
call happens while a woken waiter has not yet resumed.  The unconditional
bound of the original claim fails: a call admitted in that window skips the
stale gate check (see the counterexample, which drives running to 2 with
maxConcurrent 1). -/
theorem c4_queue_invariants (k : Nat) (evs : List QEvent) :
    (qrun (qinit k) evs).running = ((qrun (qinit k) evs).runningSet.length : Int)
    ∧ (qrun (qinit k) evs).enqueuedLog
        = (qrun (qinit k) evs).wokenLog ++ (qrun (qinit k) evs).queue
    ∧ (safeTrace (qinit k) evs = true → (qrun (qinit k) evs).running ≤ (k : Int)) := by
  have h := qrun_invariants evs (qinit k) (by simp [qinit]) (by simp [qinit])
  refine ⟨h.1, h.2, ?_⟩
  intro hsafe
  have hb := qrun_bound evs (qinit k) (by simp [qinit]) (by simp [qinit]) hsafe
  have hmax : (qrun (qinit k) evs).maxConcurrent = k := qrun_max evs (qinit k)
  rw [hmax] at hb
  omega

/-- C4 witness: with maxConcurrent 1, a race-free trace where caller 0 is
admitted, caller 1 queues, caller 0 completes waking caller 1, caller 1
resumes and completes (with a failure outcome): the invariants hold and the
bound is respected. -/
theorem c4_queue_invariants_witness :
    (qrun (qinit 1) [.call 0, .call 1, .complete 0 true, .resume 1,
        .complete 1 false]).running
      = ((qrun (qinit 1) [.call 0, .call 1, .complete 0 true, .resume 1,
        .complete 1 false]).runningSet.length : Int)
    ∧ (qrun (qinit 1) [.call 0, .call 1, .complete 0 true, .resume 1,
        .complete 1 false]).enqueuedLog
        = (qrun (qinit 1) [.call 0, .call 1, .complete 0 true, .resume 1,
          .complete 1 false]).wokenLog
          ++ (qrun (qinit 1) [.call 0, .call 1, .complete 0 true, .resume 1,
            .complete 1 false]).queue
    ∧ (qrun (qinit 1) [.call 0, .call 1, .complete 0 true, .resume 1,
        .complete 1 false]).running ≤ (1 : Int) := by
  have h := c4_queue_invariants 1 [.call 0, .call 1, .complete 0 true, .resume 1,
    .complete 1 false]
  exact ⟨h.1, h.2.1, h.2.2 (by decide)⟩

/-- C4 counterexample: a caller arriving between a slot release and the
woken waiter resumption is admitted by the stale gate check, and the
waiter then increments without a re-check: running reaches 2 with
maxConcurrent 1, refuting the unconditional bound. -/
theorem c4_bound_counterexample :
    (qrun (qinit 1) [.call 0, .call 1, .complete 0 true, .call 2,
        .resume 1]).running = 2
    ∧ (qinit 1).maxConcurrent = 1 := by
  decide

end DiscordRpc
